import Mathlib

/-!
Shallow embedding of the message template renderer of `src/mod/mod.py`
(`Mod.transform_parameter` and `Mod.transform_message`), together with
theorems settling the frozen claims about it.

Python strings are modelled as lists of characters (`Str`), Python objects
reachable from the binding context as finite attribute trees (`Obj`) carrying
their `str()` form, and dictionaries as association lists with first-match
lookup (`dictGet`).
-/

namespace FlareMod

/-- A Python string, modelled as its list of characters. -/
abbrev Str := List Char

/-- A Python object as seen by the renderer: its `str()` form and its
named attributes (each attribute again such an object).  `getattr` on a
name absent from `attrs` is a lookup miss. -/
inductive Obj : Type where
  | mk : Str → List (Str × Obj) → Obj

/-- The `str()` form of an object. -/
def Obj.str : Obj → Str
  | .mk s _ => s

/-- The attribute table of an object. -/
def Obj.attrs : Obj → List (Str × Obj)
  | .mk _ a => a

/-- The binding context (`objects` in the source): a string-keyed mapping. -/
abbrev Ctx := List (Str × Obj)

/-- Dictionary lookup: `dictGet d k = some v` models both `k in d` (membership
test) and `d[k] = v` (indexing) on a Python dict. -/
def dictGet : List (Str × Obj) → Str → Option Obj
  | [], _ => none
  | (k, v) :: rest, key => if key = k then some v else dictGet rest key

/-- Python `getattr(o, name, default)` with the default handled at the call
site: `none` means the attribute is missing and the default is returned. -/
def getattr (o : Obj) (name : Str) : Option Obj :=
  dictGet o.attrs name

/-- `"{" + result + "}"`: the fallback literal (`raw_result` in the source). -/
def wrap (e : Str) : Str := '{' :: (e ++ ['}'])

/-- Python `s.split(".")`: split on every dot, keeping empty pieces, so that
`"".split(".") == [""]`, `"a.".split(".") == ["a", ""]`, etc. -/
def splitDot : Str → List Str
  | [] => [[]]
  | c :: cs =>
    if c = '.' then [] :: splitDot cs
    else
      match splitDot cs with
      | [] => [[c]]
      | p :: ps => (c :: p) :: ps

/-- `Mod.transform_parameter(result, objects)` from `src/mod/mod.py`:

    raw_result = "{" + result + "}"
    if result in objects:
        return str(objects[result])
    try:
        first, second = result.split(".")
    except ValueError:
        return raw_result
    if first in objects and not second.startswith("_"):
        first = objects[first]
    else:
        return raw_result
    return str(getattr(first, second, raw_result))

The two-way unpacking raises `ValueError` (caught above) exactly when the
split does not have exactly two pieces, hence the `[first, second]` match. -/
def transform_parameter (result : Str) (objects : Ctx) : Str :=
  let raw_result := wrap result
  match dictGet objects result with
  | some v => v.str
  | none =>
    match splitDot result with
    | [first, second] =>
      match dictGet objects first with
      | some obj =>
        if second.head? = some '_' then raw_result
        else
          match getattr obj second with
          | some a => a.str
          | none => raw_result
      | none => raw_result
    | _ => raw_result

/-- Scanner for `re.findall(r"{([^}]+)\}", message)`: a left-to-right pass.
Outside a candidate (state `none`) a `'{'` opens a candidate; inside a
candidate (state `some acc`) every non-`'}'` character (including `'{'`) is
accumulated, and a `'}'` closes it, yielding a capture exactly when the
accumulated expression is non-empty (the regex requires one or more
characters).  A failed candidate (`"{}"` or an unclosed `'{'`) yields
nothing, matching the regex engine's restart behaviour, and matches are
non-overlapping. -/
def findAux : Str → Option Str → List Str
  | [], _ => []
  | c :: cs, none => if c = '{' then findAux cs (some []) else findAux cs none
  | c :: cs, some acc =>
    if c = '}' then
      if acc = [] then findAux cs none else acc :: findAux cs none
    else findAux cs (some (acc ++ [c]))

/-- `re.findall(r"{([^}]+)\}", message)`. -/
def findPlaceholders (message : Str) : List Str := findAux message none

/-- Boolean prefix test on character lists. -/
def isPref : Str → Str → Bool
  | [], _ => true
  | _ :: _, [] => false
  | p :: ps, c :: cs => p = c && isPref ps cs

/-- Worker for Python `str.replace`: replaces occurrences left to right,
non-overlapping.  The `Nat` argument counts characters of a just-matched
occurrence that still have to be consumed without being emitted. -/
def replAux (pat rep : Str) : Str → Nat → Str
  | [], _ => []
  | _ :: cs, Nat.succ k => replAux pat rep cs k
  | c :: cs, 0 =>
    if isPref pat (c :: cs) then rep ++ replAux pat rep cs (pat.length - 1)
    else c :: replAux pat rep cs 0

/-- Python `s.replace(pat, rep)` for a non-empty `pat` (the renderer only
ever replaces `"{" + result + "}"`, which is never empty; the empty-pattern
guard just keeps the model total). -/
def replaceAll (pat rep s : Str) : Str :=
  if pat = [] then s else replAux pat rep s 0

/-- `Mod.transform_message(message, objects)` from `src/mod/mod.py`:

    results = re.findall(r"{([^}]+)\}", message)
    for result in results:
        param = self.transform_parameter(result, objects)
        message = message.replace("{" + result + "}", param)
    return message

The placeholder list is computed once, on the original message; the
replacements are then applied sequentially, each one globally.  This is the
spec's `render(template, context)`. -/
def transform_message (message : Str) (objects : Ctx) : Str :=
  (findPlaceholders message).foldl
    (fun msg result => replaceAll (wrap result) (transform_parameter result objects) msg)
    message

/-- Follows the spec's words for claim C1 (simultaneous substitution):
one left-to-right pass over the template in which every placeholder
`{expr}` (non-empty `expr` up to the next `'}'`) is replaced by
`transform_parameter expr ctx` independently, so no substituted value is
ever rescanned or rewritten; everything else is copied verbatim. -/
def renderSimAux (objects : Ctx) : Str → Option Str → Str
  | [], none => []
  | [], some acc => '{' :: acc
  | c :: cs, none =>
    if c = '{' then renderSimAux objects cs (some [])
    else c :: renderSimAux objects cs none
  | c :: cs, some acc =>
    if c = '}' then
      if acc = [] then '{' :: '}' :: renderSimAux objects cs none
      else transform_parameter acc objects ++ renderSimAux objects cs none
    else renderSimAux objects cs (some (acc ++ [c]))

/-- Simultaneous (single-pass) substitution, the spec's reading of
`transform_message` in claim C1. -/
def renderSimultaneous (template : Str) (objects : Ctx) : Str :=
  renderSimAux objects template none

/-- A string containing neither `'{'` nor `'}'`. -/
def braceFree (s : Str) : Prop := '{' ∉ s ∧ '}' ∉ s

instance braceFree.dec (s : Str) : Decidable (braceFree s) :=
  inferInstanceAs (Decidable ('{' ∉ s ∧ '}' ∉ s))

/-- Proof-side tokenisation of a template: a verbatim chunk or a placeholder. -/
inductive Tok : Type where
  | lit : Str → Tok
  | ph : Str → Tok

/-- Flatten a token list, rendering each placeholder `ph e` with display `d e`. -/
def flattenD (d : Str → Str) : List Tok → Str
  | [] => []
  | .lit s :: rest => s ++ flattenD d rest
  | .ph e :: rest => d e ++ flattenD d rest

/-- The placeholder expressions of a token list, in order. -/
def phsOf : List Tok → List Str
  | [] => []
  | .lit _ :: rest => phsOf rest
  | .ph e :: rest => e :: phsOf rest

/-- Tokeniser mirroring the scanner `findAux`, but keeping the verbatim
chunks as well as the captures. -/
def tokAux : Str → Option Str → List Tok
  | [], none => []
  | [], some acc => [.lit ('{' :: acc)]
  | c :: cs, none =>
    if c = '{' then tokAux cs (some []) else .lit [c] :: tokAux cs none
  | c :: cs, some acc =>
    if c = '}' then
      if acc = [] then .lit ['{', '}'] :: tokAux cs none
      else .ph acc :: tokAux cs none
    else tokAux cs (some (acc ++ [c]))

/-- Display update performed by one replacement pass for expression `e`:
a placeholder still displayed as its literal `{e}` now displays the
substituted value. -/
def updD (objects : Ctx) (d : Str → Str) (e : Str) : Str → Str :=
  fun f => if f = e ∧ d e = wrap e then transform_parameter e objects else d f

/-- Display after the replacement passes for all expressions of `E`, in order. -/
def applyAll (objects : Ctx) (E : List Str) (d : Str → Str) : Str → Str :=
  E.foldl (updD objects) d

/-- Well-formedness of a non-final token: a verbatim single character other
than `'{'`, a failed empty candidate `"{}"`, or a captured placeholder. -/
def okTok : Tok → Prop
  | .lit s => (∃ c, c ≠ '{' ∧ s = [c]) ∨ s = ['{', '}']
  | .ph e => e ≠ [] ∧ '}' ∉ e

/-- Well-formed token lists: every token is `okTok`, except that the final
token may be an unclosed candidate `'{' :: acc` with no `'}'` in it. -/
inductive OkToks : List Tok → Prop where
  | nil : OkToks []
  | last_unclosed (acc : Str) : '}' ∉ acc → OkToks [.lit ('{' :: acc)]
  | cons (tk : Tok) (rest : List Tok) : okTok tk → OkToks rest → OkToks (tk :: rest)

/-! ### Basic lemmas about the prefix test and `replaceAll` -/

theorem isPref_append : ∀ (pat y : Str), isPref pat (pat ++ y) = true
  | [], _ => rfl
  | p :: ps, y => by simp [isPref, isPref_append ps y]

theorem isPref_eq_append : ∀ {pat s : Str}, isPref pat s = true →
    s = pat ++ s.drop pat.length := by
  intro pat
  induction pat with
  | nil => intro s _; simp
  | cons p ps ih =>
    intro s h
    cases s with
    | nil => simp [isPref] at h
    | cons c cs =>
      simp only [isPref, Bool.and_eq_true, decide_eq_true_eq] at h
      obtain ⟨rfl, h2⟩ := h
      simpa [List.length_cons] using congrArg (p :: ·) (ih h2)

theorem isPref_head : ∀ {p : Char} {ps : Str} {c : Char} {cs : Str},
    isPref (p :: ps) (c :: cs) = true → p = c ∧ isPref ps cs = true := by
  intro p ps c cs h
  simpa [isPref] using h

theorem replAux_skip (pat rep : Str) : ∀ (s : Str) (k : Nat),
    replAux pat rep s k = replAux pat rep (s.drop k) 0
  | [], k => by cases k <;> simp [replAux]
  | c :: cs, 0 => rfl
  | c :: cs, Nat.succ k => by
    simp only [replAux, List.drop_succ_cons]
    exact replAux_skip pat rep cs k

theorem replaceAll_nil (pat rep : Str) : replaceAll pat rep [] = [] := by
  by_cases h : pat = [] <;> simp [replaceAll, replAux, h]

theorem replaceAll_cons (pat rep : Str) (hp : pat ≠ []) (c : Char) (cs : Str) :
    replaceAll pat rep (c :: cs) =
      if isPref pat (c :: cs) = true then
        rep ++ replaceAll pat rep ((c :: cs).drop pat.length)
      else c :: replaceAll pat rep cs := by
  obtain ⟨p, pr, rfl⟩ : ∃ p pr, pat = p :: pr := by
    cases pat with
    | nil => exact absurd rfl hp
    | cons p pr => exact ⟨p, pr, rfl⟩
  simp only [replaceAll, reduceCtorEq, if_false, replAux, List.length_cons,
    List.drop_succ_cons, Nat.add_sub_cancel]
  by_cases h : isPref (p :: pr) (c :: cs) = true
  · simp [h, replAux_skip]
  · simp [h]

theorem replaceAll_self (pat : Str) : ∀ (n : Nat) (s : Str), s.length ≤ n →
    replaceAll pat pat s = s := by
  intro n
  induction n with
  | zero =>
    intro s hs
    rw [List.length_eq_zero.mp (Nat.le_zero.mp hs)]
    exact replaceAll_nil pat pat
  | succ n ih =>
    intro s hs
    by_cases hp : pat = []
    · subst hp; simp [replaceAll]
    cases s with
    | nil => exact replaceAll_nil pat pat
    | cons c cs =>
      rw [replaceAll_cons pat pat hp c cs]
      by_cases h : isPref pat (c :: cs) = true
      · have hdec := isPref_eq_append h
        have hlen : ((c :: cs).drop pat.length).length ≤ n := by
          have hlenpat : 1 ≤ pat.length := by
            cases pat with
            | nil => exact absurd rfl hp
            | cons _ _ => simp
          have := List.length_drop pat.length (c :: cs)
          simp only [List.length_cons] at hs this
          omega
        rw [if_pos h, ih _ hlen]
        exact hdec.symm
      · rw [if_neg h]
        have : cs.length ≤ n := by
          simp only [List.length_cons] at hs; omega
        rw [ih cs this]

theorem replaceAll_eq_self (pat rep s : Str) (h : rep = pat) :
    replaceAll pat rep s = s := by
  rw [h]; exact replaceAll_self pat s.length s (Nat.le_refl _)

theorem replaceAll_skip (pat rep : Str) (hp : pat.head? = some '{') :
    ∀ (x y : Str), '{' ∉ x → replaceAll pat rep (x ++ y) = x ++ replaceAll pat rep y := by
  obtain ⟨pr, rfl⟩ : ∃ pr, pat = '{' :: pr := by
    cases pat with
    | nil => simp at hp
    | cons p pr =>
      simp only [List.head?_cons, Option.some.injEq] at hp
      exact ⟨pr, by rw [hp]⟩
  intro x
  induction x with
  | nil => intro y _; simp
  | cons c cs ih =>
    intro y hx
    have hc : c ≠ '{' := by
      intro hc; exact hx (by simp [hc])
    rw [List.cons_append, replaceAll_cons _ rep (by simp) c (cs ++ y)]
    have hnp : ¬ isPref ('{' :: pr) (c :: (cs ++ y)) = true := by
      intro h
      exact hc ((isPref_head h).1.symm)
    rw [if_neg hnp, ih y (fun h => hx (List.mem_cons_of_mem c h))]
    simp

theorem replaceAll_matched (pat rep y : Str) (hp : pat ≠ []) :
    replaceAll pat rep (pat ++ y) = rep ++ replaceAll pat rep y := by
  obtain ⟨p, pr, rfl⟩ : ∃ p pr, pat = p :: pr := by
    cases pat with
    | nil => exact absurd rfl hp
    | cons p pr => exact ⟨p, pr, rfl⟩
  rw [List.cons_append, replaceAll_cons _ rep hp p (pr ++ y),
    if_pos (by rw [← List.cons_append]; exact isPref_append (p :: pr) y)]
  congr 1
  rw [← List.cons_append, List.drop_left]

theorem replaceAll_of_not_closed (pat rep s : Str) (hpat : '}' ∈ pat) (hs : '}' ∉ s) :
    replaceAll pat rep s = s := by
  induction s with
  | nil => exact replaceAll_nil pat rep
  | cons c cs ih =>
    have hp : pat ≠ [] := by rintro rfl; simp at hpat
    rw [replaceAll_cons pat rep hp c cs]
    have hnp : ¬ isPref pat (c :: cs) = true := by
      intro h
      have := isPref_eq_append h
      exact hs (this ▸ List.mem_append_left _ hpat)
    rw [if_neg hnp, ih (fun h => hs (List.mem_cons_of_mem c h))]

/-! ### Two placeholder literals can only match when their expressions agree -/

theorem isPref_close (y : Str) : ∀ (e f : Str), '}' ∉ e → '}' ∉ f →
    isPref (e ++ ['}']) (f ++ '}' :: y) = true → e = f := by
  intro e
  induction e with
  | nil =>
    intro f he hf h
    cases f with
    | nil => rfl
    | cons b fr =>
      simp only [List.nil_append, List.cons_append, isPref, Bool.and_eq_true,
        decide_eq_true_eq] at h
      exact absurd (h.1 ▸ List.mem_cons_self '}' fr) hf
  | cons a er ih =>
    intro f he hf h
    cases f with
    | nil =>
      simp only [List.cons_append, List.nil_append, isPref, Bool.and_eq_true,
        decide_eq_true_eq] at h
      exact absurd (h.1 ▸ List.mem_cons_self a er) (h.1 ▸ he)
    | cons b fr =>
      simp only [List.cons_append, isPref, Bool.and_eq_true, decide_eq_true_eq] at h
      have := ih fr (fun hm => he (List.mem_cons_of_mem a hm))
        (fun hm => hf (List.mem_cons_of_mem b hm)) h.2
      rw [h.1, this]

theorem isPref_wrap_wrap {e f : Str} (y : Str) (he : '}' ∉ e) (hf : '}' ∉ f)
    (hne : e ≠ f) : ¬ isPref (wrap e) (wrap f ++ y) = true := by
  intro h
  have hshape : wrap f ++ y = '{' :: (f ++ '}' :: y) := by simp [wrap]
  rw [hshape, wrap] at h
  have h2 : isPref (e ++ ['}']) (f ++ '}' :: y) = true := by
    simpa [isPref] using h
  exact hne (isPref_close y e f he hf h2)

theorem replaceAll_wrap_other {e f : Str} (rep y : Str) (hec : '}' ∉ e)
    (hfc : '}' ∉ f) (hfo : '{' ∉ f) (hne : e ≠ f) :
    replaceAll (wrap e) rep (wrap f ++ y) = wrap f ++ replaceAll (wrap e) rep y := by
  have hshape : wrap f ++ y = '{' :: ((f ++ ['}']) ++ y) := by simp [wrap]
  have hnp : ¬ isPref (wrap e) ('{' :: ((f ++ ['}']) ++ y)) = true := by
    rw [← hshape]; exact isPref_wrap_wrap y hec hfc hne
  have hfo2 : '{' ∉ f ++ ['}'] := by
    intro h
    rcases List.mem_append.mp h with h1 | h1
    · exact hfo h1
    · simp at h1
  rw [hshape, replaceAll_cons (wrap e) rep (by simp [wrap]) '{' ((f ++ ['}']) ++ y),
    if_neg hnp, replaceAll_skip (wrap e) rep (by simp [wrap]) (f ++ ['}']) y hfo2]
  simp [wrap]

theorem replaceAll_brace_pair (e rep : Str) (he : e ≠ []) (hec : '}' ∉ e) (y : Str) :
    replaceAll (wrap e) rep ('{' :: '}' :: y) = '{' :: '}' :: replaceAll (wrap e) rep y := by
  obtain ⟨a, er, rfl⟩ : ∃ a er, e = a :: er := by
    cases e with
    | nil => exact absurd rfl he
    | cons a er => exact ⟨a, er, rfl⟩
  have ha : a ≠ '}' := fun h => hec (h ▸ List.mem_cons_self a er)
  rw [replaceAll_cons (wrap (a :: er)) rep (by simp [wrap]) '{' ('}' :: y),
    if_neg (by simp [wrap, isPref, ha])]
  rw [replaceAll_cons (wrap (a :: er)) rep (by simp [wrap]) '}' y,
    if_neg (by simp [wrap, isPref])]

/-! ### Lemmas about `splitDot` -/

theorem splitDot_ne_nil : ∀ (s : Str), splitDot s ≠ [] := by
  intro s
  cases s with
  | nil => simp [splitDot]
  | cons c cs =>
    by_cases h : c = '.'
    · simp [splitDot, h]
    · cases hcs : splitDot cs <;> simp [splitDot, h, hcs]

theorem splitDot_no_dot : ∀ (s : Str), '.' ∉ s → splitDot s = [s] := by
  intro s
  induction s with
  | nil => intro _; rfl
  | cons c cs ih =>
    intro h
    have hc : c ≠ '.' := fun hc => h (hc ▸ List.mem_cons_self c cs)
    rw [splitDot, if_neg hc, ih (fun hm => h (List.mem_cons_of_mem c hm))]

theorem splitDot_append (xs ys : Str) :
    splitDot (xs ++ '.' :: ys) = splitDot xs ++ splitDot ys := by
  induction xs with
  | nil => simp [splitDot]
  | cons c cs ih =>
    by_cases h : c = '.'
    · simp [splitDot, h, ih]
    · obtain ⟨p, ps, hcs⟩ : ∃ p ps, splitDot cs = p :: ps := by
        cases hcs : splitDot cs with
        | nil => exact absurd hcs (splitDot_ne_nil cs)
        | cons p ps => exact ⟨p, ps, rfl⟩
      have hys : splitDot (cs ++ '.' :: ys) = p :: (ps ++ splitDot ys) := by
        rw [ih, hcs]; simp
      simp [splitDot, h, hcs, hys]

theorem splitDot_singleton : ∀ (s : Str) {x : Str}, splitDot s = [x] → x = s := by
  intro s
  induction s with
  | nil => intro x h; simp [splitDot] at h; exact h
  | cons c cs ih =>
    intro x h
    by_cases hc : c = '.'
    · rw [splitDot, if_pos hc] at h
      obtain ⟨h1, h2⟩ := List.cons.injEq (α := Str) [] (splitDot cs) x [] ▸ h
      exact absurd h2 (splitDot_ne_nil cs)
    · obtain ⟨p, ps, hcs⟩ : ∃ p ps, splitDot cs = p :: ps := by
        cases hcs : splitDot cs with
        | nil => exact absurd hcs (splitDot_ne_nil cs)
        | cons p ps => exact ⟨p, ps, rfl⟩
      rw [splitDot, if_neg hc, hcs] at h
      simp only [List.cons.injEq] at h
      obtain ⟨h1, h2⟩ := h
      have : p = cs := ih (by rw [hcs, h2])
      rw [← h1, this]

/-! ### Lemmas about the placeholder scanner -/

theorem findAux_wf : ∀ (s : Str) (o : Option Str),
    (∀ acc, o = some acc → '}' ∉ acc) → ∀ e ∈ findAux s o, e ≠ [] ∧ '}' ∉ e := by
  intro s
  induction s with
  | nil => intro o _ e he; simp [findAux] at he
  | cons c cs ih =>
    intro o ho e he
    cases o with
    | none =>
      by_cases hc : c = '{'
      · rw [findAux, if_pos hc] at he
        exact ih (some []) (by intro acc h; cases h; simp) e he
      · rw [findAux, if_neg hc] at he
        exact ih none (by simp) e he
    | some acc =>
      by_cases hc : c = '}'
      · rw [findAux, if_pos hc] at he
        by_cases hacc : acc = []
        · rw [if_pos hacc] at he
          exact ih none (by simp) e he
        · rw [if_neg hacc] at he
          rcases List.mem_cons.mp he with h1 | hmem
          · rw [h1]; exact ⟨hacc, ho acc rfl⟩
          · exact ih none (by simp) e hmem
      · rw [findAux, if_neg hc] at he
        refine ih (some (acc ++ [c])) ?_ e he
        intro a ha
        cases ha
        intro hmem
        rcases List.mem_append.mp hmem with h1 | h1
        · exact ho acc rfl h1
        · exact hc (List.mem_singleton.mp h1).symm

theorem findPlaceholders_wf (s : Str) : ∀ e ∈ findPlaceholders s, e ≠ [] ∧ '}' ∉ e :=
  findAux_wf s none (by simp)

theorem findAux_closed : ∀ (e : Str), '}' ∉ e → ∀ (acc rest : Str),
    findAux (e ++ '}' :: rest) (some acc) =
      if acc ++ e = [] then findAux rest none else (acc ++ e) :: findAux rest none := by
  intro e
  induction e with
  | nil => intro _ acc rest; simp [findAux]
  | cons c cs ih =>
    intro he acc rest
    have hc : c ≠ '}' := fun h => he (h ▸ List.mem_cons_self c cs)
    rw [List.cons_append, findAux, if_neg hc,
      ih (fun hm => he (List.mem_cons_of_mem c hm)) (acc ++ [c]) rest]
    have hne : acc ++ c :: cs ≠ [] := by simp
    have hne2 : (acc ++ [c]) ++ cs ≠ [] := by simp
    rw [if_neg hne2, if_neg hne]
    simp

theorem findPlaceholders_single (e : Str) (he : e ≠ []) (hc : '}' ∉ e) :
    findPlaceholders (wrap e) = [e] := by
  have : wrap e = '{' :: (e ++ '}' :: []) := by simp [wrap]
  rw [findPlaceholders, this, findAux, if_pos rfl, findAux_closed e hc [] []]
  simp [findAux, he]

theorem transform_message_single (e : Str) (ctx : Ctx) (he : e ≠ []) (hc : '}' ∉ e) :
    transform_message (wrap e) ctx = transform_parameter e ctx := by
  rw [transform_message, findPlaceholders_single e he hc]
  simp only [List.foldl_cons, List.foldl_nil]
  have h := replaceAll_matched (wrap e) (transform_parameter e ctx) [] (by simp [wrap])
  rw [List.append_nil] at h
  rw [h, replaceAll_nil, List.append_nil]

/-! ### Case analysis of `transform_parameter` -/

theorem transform_parameter_key (e : Str) (ctx : Ctx) (v : Obj)
    (h : dictGet ctx e = some v) : transform_parameter e ctx = v.str := by
  simp [transform_parameter, h]

theorem transform_parameter_not_two (e : Str) (ctx : Ctx) (h : dictGet ctx e = none)
    (h2 : (splitDot e).length ≠ 2) : transform_parameter e ctx = wrap e := by
  cases l : splitDot e with
  | nil => simp [transform_parameter, h, l]
  | cons a t =>
    cases t with
    | nil => simp [transform_parameter, h, l]
    | cons b t2 =>
      cases t2 with
      | nil => rw [l] at h2; simp at h2
      | cons c t3 => simp [transform_parameter, h, l]

theorem transform_parameter_one_part (e : Str) (ctx : Ctx) (h : dictGet ctx e = none)
    (h2 : '.' ∉ e) : transform_parameter e ctx = wrap e := by
  refine transform_parameter_not_two e ctx h ?_
  rw [splitDot_no_dot e h2]
  simp

theorem transform_parameter_underscore (e f s : Str) (ctx : Ctx)
    (h : dictGet ctx e = none) (hsplit : splitDot e = [f, s])
    (hu : s.head? = some '_') : transform_parameter e ctx = wrap e := by
  simp only [transform_parameter, h, hsplit, hu, if_pos]
  cases dictGet ctx f <;> rfl

theorem transform_parameter_first_missing (e f s : Str) (ctx : Ctx)
    (h : dictGet ctx e = none) (hsplit : splitDot e = [f, s])
    (hf : dictGet ctx f = none) : transform_parameter e ctx = wrap e := by
  simp [transform_parameter, h, hsplit, hf]

theorem transform_parameter_attr (e f s : Str) (ctx : Ctx) (obj a : Obj)
    (h : dictGet ctx e = none) (hsplit : splitDot e = [f, s])
    (hf : dictGet ctx f = some obj) (hu : ¬ s.head? = some '_')
    (ha : getattr obj s = some a) : transform_parameter e ctx = a.str := by
  simp [transform_parameter, h, hsplit, hf, hu, ha]

theorem transform_parameter_attr_missing (e f s : Str) (ctx : Ctx) (obj : Obj)
    (h : dictGet ctx e = none) (hsplit : splitDot e = [f, s])
    (hf : dictGet ctx f = some obj) (hu : ¬ s.head? = some '_')
    (ha : getattr obj s = none) : transform_parameter e ctx = wrap e := by
  simp [transform_parameter, h, hsplit, hf, hu, ha]

/-- Splitting a name with no dot on either side of an explicit dot. -/
theorem splitDot_pair (f s : Str) (hf : '.' ∉ f) (hs : '.' ∉ s) :
    splitDot (f ++ '.' :: s) = [f, s] := by
  rw [splitDot_append f s, splitDot_no_dot f hf, splitDot_no_dot s hs]
  rfl

theorem splitDot_pos (s : Str) : 1 ≤ (splitDot s).length := by
  cases h : splitDot s with
  | nil => exact absurd h (splitDot_ne_nil s)
  | cons a t => simp

theorem splitDot_two_le : ∀ (s : Str), '.' ∈ s → 2 ≤ (splitDot s).length := by
  intro s
  induction s with
  | nil => intro h; simp at h
  | cons c cs ih =>
    intro h
    by_cases hc : c = '.'
    · rw [splitDot, if_pos hc]
      have := splitDot_pos cs
      simp only [List.length_cons]
      omega
    · have hcs : '.' ∈ cs := by
        rcases List.mem_cons.mp h with h1 | h1
        · exact absurd h1.symm hc
        · exact h1
      obtain ⟨p, ps, hp⟩ : ∃ p ps, splitDot cs = p :: ps := by
        cases hsp : splitDot cs with
        | nil => exact absurd hsp (splitDot_ne_nil cs)
        | cons p ps => exact ⟨p, ps, rfl⟩
      have h2 := ih hcs
      rw [splitDot, if_neg hc, hp]
      rw [hp] at h2
      simpa using h2

/-- Parts of a dotted name: the length of the split of `n ++ "." ++ a`
is at least three as soon as `n` or `a` contains a dot itself. -/
theorem splitDot_dotted_long (n a : Str) (h : '.' ∈ n ∨ '.' ∈ a) :
    3 ≤ (splitDot (n ++ '.' :: a)).length := by
  rw [splitDot_append, List.length_append]
  rcases h with h1 | h1
  · have := splitDot_two_le n h1
    have := splitDot_pos a
    omega
  · have := splitDot_two_le a h1
    have := splitDot_pos n
    omega

/-- Membership of `'}'` in a wrapped dotted expression. -/
theorem not_mem_dotted {x : Char} (n a : Str) (hx : x ≠ '.') (hn : x ∉ n) (ha : x ∉ a) :
    x ∉ n ++ '.' :: a := by
  intro h
  rcases List.mem_append.mp h with h1 | h1
  · exact hn h1
  · rcases List.mem_cons.mp h1 with h2 | h2
    · exact hx h2
    · exact ha h2

/-! ### Fold helpers for `transform_message` -/

theorem foldl_replace_id (ctx : Ctx) : ∀ (E : List Str) (m : Str),
    (∀ e ∈ E, transform_parameter e ctx = wrap e) →
    E.foldl (fun msg result => replaceAll (wrap result) (transform_parameter result ctx) msg) m
      = m := by
  intro E
  induction E with
  | nil => intro m _; rfl
  | cons e E ih =>
    intro m h
    rw [List.foldl_cons, replaceAll_eq_self _ _ m (h e (List.mem_cons_self e E))]
    exact ih m (fun x hx => h x (List.mem_cons_of_mem e hx))

theorem foldl_replace_congr (ctx1 ctx2 : Ctx) : ∀ (E : List Str) (m : Str),
    (∀ e ∈ E, transform_parameter e ctx1 = transform_parameter e ctx2) →
    E.foldl (fun msg result => replaceAll (wrap result) (transform_parameter result ctx1) msg) m
      = E.foldl
        (fun msg result => replaceAll (wrap result) (transform_parameter result ctx2) msg) m := by
  intro E
  induction E with
  | nil => intro m _; rfl
  | cons e E ih =>
    intro m h
    rw [List.foldl_cons, List.foldl_cons, h e (List.mem_cons_self e E)]
    exact ih _ (fun x hx => h x (List.mem_cons_of_mem e hx))

/-- Resolution of an expression only consults the context at the expression
itself and at the head of its dot-split, so any other binding is invisible. -/
theorem transform_parameter_extend (e k : Str) (v : Obj) (ctx : Ctx) (hne : e ≠ k)
    (hhead : (splitDot e).head? ≠ some k) :
    transform_parameter e ((k, v) :: ctx) = transform_parameter e ctx := by
  have hd : dictGet ((k, v) :: ctx) e = dictGet ctx e := by simp [dictGet, hne]
  cases l : splitDot e with
  | nil => simp [transform_parameter, hd, l]
  | cons a t =>
    cases t with
    | nil => simp [transform_parameter, hd, l]
    | cons b t2 =>
      cases t2 with
      | cons c t3 => simp [transform_parameter, hd, l]
      | nil =>
        have ha : a ≠ k := by
          rw [l] at hhead
          simpa using hhead
        have hda : dictGet ((k, v) :: ctx) a = dictGet ctx a := by simp [dictGet, ha]
        simp [transform_parameter, hd, l, hda]

/-! ### Claims C2 to C10 -/

/-- Claim C2, counterexample: the claim quantifies over every binding
context and every attribute name, but it fails (1) when the context also
binds the dotted text `n.a` itself (the substituted value is the binding,
not the fallback literal), (2) when `n` contains `'}'` and its prefix up to
that `'}'` is bound, and (3) when `a` contains `'}'` followed by another
placeholder, which is then substituted.  In all three cases the rendered
output differs from the fallback literal the claim promises. -/
theorem C2_counterexample :
    (transform_message (wrap ("user".data ++ '.' :: "_x".data))
        [(("user".data), Obj.mk ("Bob".data) [(("_x".data), Obj.mk ("sec".data) [])]),
         (("user".data ++ '.' :: "_x".data), Obj.mk ("SECRET".data) [])]
        = ("SECRET".data) ∧
      ("SECRET".data) ≠ wrap ("user".data ++ '.' :: "_x".data)) ∧
    (transform_message (wrap ((['u', '}', 'v']) ++ '.' :: "_w".data))
        [((['u', '}', 'v']), Obj.mk ("O".data) [(("_w".data), Obj.mk ("S".data) [])]),
         (("u".data), Obj.mk ("U".data) [])]
        = ("Uv._w".data ++ ['}']) ∧
      ("Uv._w".data ++ ['}']) ≠ wrap ((['u', '}', 'v']) ++ '.' :: "_w".data)) ∧
    (transform_message (wrap ("user".data ++ '.' :: ("_x".data ++ '}' :: '{' :: "user".data)))
        [(("user".data), Obj.mk ("Bob".data) [(("_x".data), Obj.mk ("s".data) [])])]
        = (wrap ("user".data ++ '.' :: "_x".data) ++ "Bob".data) ∧
      (wrap ("user".data ++ '.' :: "_x".data) ++ "Bob".data)
        ≠ wrap ("user".data ++ '.' :: ("_x".data ++ '}' :: '{' :: "user".data))) := by
  refine ⟨⟨by decide, by decide⟩, ⟨by decide, by decide⟩, by decide, by decide⟩

/-- Claim C2, amended: for every context `ctx`, top-level name `n` bound in
`ctx` and attribute name `a` starting with an underscore, provided that
neither `n` nor `a` contains `'}'` and the dotted text `n.a` is not itself a
key of `ctx`, rendering the template `{n.a}` leaves it unchanged — the
underscore-guarded attribute is never substituted, even when it exists. -/
theorem C2_private_attribute_fallback (ctx : Ctx) (n a : Str) (obj : Obj)
    (hbound : dictGet ctx n = some obj) (hu : a.head? = some '_')
    (hn : '}' ∉ n) (ha : '}' ∉ a)
    (hshadow : dictGet ctx (n ++ '.' :: a) = none) :
    transform_message (wrap (n ++ '.' :: a)) ctx = wrap (n ++ '.' :: a) := by
  rw [transform_message_single _ ctx (by simp) (not_mem_dotted n a (by decide) hn ha)]
  by_cases hdot : '.' ∈ n ∨ '.' ∈ a
  · refine transform_parameter_not_two _ ctx hshadow ?_
    have := splitDot_dotted_long n a hdot
    omega
  · push_neg at hdot
    exact transform_parameter_underscore _ n a ctx hshadow
      (splitDot_pair n a hdot.1 hdot.2) hu

/-- Witness for the amended claim C2 at a concrete input. -/
theorem C2_witness :
    transform_message (wrap ("user".data ++ '.' :: "_secret".data))
      [(("user".data), Obj.mk ("Bob".data) [(("_secret".data), Obj.mk ("hidden".data) [])])]
      = wrap ("user".data ++ '.' :: "_secret".data) :=
  C2_private_attribute_fallback _ _ _ (Obj.mk ("Bob".data) [(("_secret".data), Obj.mk ("hidden".data) [])])
    rfl rfl (by decide) (by decide) rfl

/-- Claim C3: resolution never raises: for every expression and context,
`transform_parameter` either returns the fallback literal `{expr}` (the
case of every anomaly: unknown top-level name, malformed dotted expression,
private-attribute access, missing attribute) or successfully resolves the
expression as a direct key or as a permitted attribute access; in the total
model this disjunction is exactly the source's "always return a string,
never raise" behaviour, and `transform_message` therefore always returns a
string made of these values. -/
theorem C3_no_raise_fallback (e : Str) (ctx : Ctx) :
    transform_parameter e ctx = wrap e ∨
    (∃ v, dictGet ctx e = some v ∧ transform_parameter e ctx = v.str) ∨
    (∃ f s obj a, splitDot e = [f, s] ∧ dictGet ctx f = some obj ∧
      ¬ s.head? = some '_' ∧ getattr obj s = some a ∧
      transform_parameter e ctx = a.str) := by
  cases hk : dictGet ctx e with
  | some v => exact Or.inr (Or.inl ⟨v, rfl, transform_parameter_key e ctx v hk⟩)
  | none =>
    cases l : splitDot e with
    | nil => exact Or.inl (transform_parameter_not_two e ctx hk (by rw [l]; simp))
    | cons p t =>
      cases t with
      | nil => exact Or.inl (transform_parameter_not_two e ctx hk (by rw [l]; simp))
      | cons q t2 =>
        cases t2 with
        | cons r t3 =>
          exact Or.inl (transform_parameter_not_two e ctx hk (by rw [l]; simp))
        | nil =>
          cases hf : dictGet ctx p with
          | none => exact Or.inl (transform_parameter_first_missing e p q ctx hk l hf)
          | some obj =>
            by_cases hu : q.head? = some '_'
            · exact Or.inl (transform_parameter_underscore e p q ctx hk l hu)
            · cases hattr : getattr obj q with
              | none =>
                exact Or.inl (transform_parameter_attr_missing e p q ctx obj hk l hf hu hattr)
              | some av =>
                exact Or.inr (Or.inr ⟨p, q, obj, av, rfl, hf, hu, hattr,
                  transform_parameter_attr e p q ctx obj av hk l hf hu hattr⟩)

/-- Claim C4, counterexample: the claim fails (1) when the context also
binds the dotted text `first.second` itself, (2) when `first` contains a
dot (the split then has three parts and falls back), (3) when `second`
contains a dot, (4) when `first` contains `'}'`, and (5) when `second`
contains `'}'` — in each case the render differs from
`str(getattr(ctx[first], second))`. -/
theorem C4_counterexample :
    (transform_message (wrap ("a".data ++ '.' :: "b".data))
        [(("a".data), Obj.mk ("A".data) [(("b".data), Obj.mk ("B".data) [])]),
         (("a".data ++ '.' :: "b".data), Obj.mk ("SHADOW".data) [])]
        = ("SHADOW".data) ∧ ("SHADOW".data) ≠ ("B".data)) ∧
    (transform_message (wrap ("a.b".data ++ '.' :: "c".data))
        [(("a.b".data), Obj.mk ("AB".data) [(("c".data), Obj.mk ("C".data) [])])]
        = wrap ("a.b.c".data) ∧ wrap ("a.b.c".data) ≠ ("C".data)) ∧
    (transform_message (wrap ("a".data ++ '.' :: "b.c".data))
        [(("a".data), Obj.mk ("A".data) [(("b.c".data), Obj.mk ("V".data) [])])]
        = wrap ("a.b.c".data) ∧ wrap ("a.b.c".data) ≠ ("V".data)) ∧
    (transform_message (wrap ((['u', '}', 'v']) ++ '.' :: "w".data))
        [((['u', '}', 'v']), Obj.mk ("O".data) [(("w".data), Obj.mk ("W".data) [])]),
         (("u".data), Obj.mk ("U".data) [])]
        = ("Uv.w".data ++ ['}']) ∧ ("Uv.w".data ++ ['}']) ≠ ("W".data)) ∧
    (transform_message (wrap ("a".data ++ '.' :: (['w', '}', 'x'])))
        [(("a".data), Obj.mk ("A".data) [((['w', '}', 'x']), Obj.mk ("V".data) [])])]
        = wrap ("a".data ++ '.' :: (['w', '}', 'x'])) ∧
      wrap ("a".data ++ '.' :: (['w', '}', 'x'])) ≠ ("V".data)) := by
  exact ⟨⟨by decide, by decide⟩, ⟨by decide, by decide⟩, ⟨by decide, by decide⟩,
    ⟨by decide, by decide⟩, by decide, by decide⟩

/-- Claim C4, amended: for every context `ctx`, key `first` of `ctx` and
attribute `second` present on `ctx[first]` and not starting with an
underscore, provided that `first` and `second` contain neither `'.'` nor
`'}'` and the dotted text `first.second` is not itself a key of `ctx`,
rendering `{first.second}` yields `str(getattr(ctx[first], second))`. -/
theorem C4_attribute_resolution (ctx : Ctx) (f s : Str) (obj a : Obj)
    (hf : dictGet ctx f = some obj) (hu : ¬ s.head? = some '_')
    (ha : getattr obj s = some a)
    (hshadow : dictGet ctx (f ++ '.' :: s) = none)
    (hdf : '.' ∉ f) (hds : '.' ∉ s) (hbf : '}' ∉ f) (hbs : '}' ∉ s) :
    transform_message (wrap (f ++ '.' :: s)) ctx = a.str := by
  rw [transform_message_single _ ctx (by simp) (not_mem_dotted f s (by decide) hbf hbs)]
  exact transform_parameter_attr _ f s ctx obj a hshadow (splitDot_pair f s hdf hds) hf hu ha

/-- Witness for the amended claim C4 at a concrete input. -/
theorem C4_witness :
    transform_message (wrap ("user".data ++ '.' :: "id".data))
      [(("user".data), Obj.mk ("Bob".data) [(("id".data), Obj.mk ("7".data) [])])]
      = ("7".data) :=
  C4_attribute_resolution _ _ _ (Obj.mk ("Bob".data) [(("id".data), Obj.mk ("7".data) [])])
    (Obj.mk ("7".data) []) rfl (by decide) rfl rfl (by decide) (by decide) (by decide) (by decide)

/-- Claim C5, counterexample: the claim asserts the fallback for every
context whenever the split of the expression does not give exactly two
non-empty parts, but (1) an expression with two dots can itself be a
context key and is then substituted, (2) an expression `x.` with an empty
second part resolves when the object carries an attribute named by the
empty string, and (3) an expression `.b` with an empty first part resolves
when the empty string is a context key. -/
theorem C5_counterexample :
    (transform_message (wrap ("a.b.c".data)) [(("a.b.c".data), Obj.mk ("V".data) [])]
        = ("V".data) ∧ ("V".data) ≠ wrap ("a.b.c".data)) ∧
    (transform_message (wrap ("x".data ++ ['.']))
        [(("x".data), Obj.mk ("O".data) [(([]), Obj.mk ("E".data) [])])]
        = ("E".data) ∧ ("E".data) ≠ wrap ("x".data ++ ['.'])) ∧
    (transform_message (wrap ('.' :: "b".data))
        [(([] : Str), Obj.mk ("O".data) [(("b".data), Obj.mk ("B".data) [])])]
        = ("B".data) ∧ ("B".data) ≠ wrap ('.' :: "b".data)) := by
  exact ⟨⟨by decide, by decide⟩, ⟨by decide, by decide⟩, by decide, by decide⟩

/-- Claim C5, amended: for every placeholder expression `e` (non-empty,
without `'}'`) that is not itself a key of the context and whose dot-split
does not have exactly two parts (zero dots, or two or more dots), the
rendered single-placeholder template is the unchanged fallback literal
`{e}`; an expression with exactly one dot and an empty part is not
automatically a fallback — it resolves through the ordinary two-part path. -/
theorem C5_malformed_fallback (ctx : Ctx) (e : Str) (he : e ≠ []) (hb : '}' ∉ e)
    (hkey : dictGet ctx e = none) (hparts : (splitDot e).length ≠ 2) :
    transform_message (wrap e) ctx = wrap e := by
  rw [transform_message_single e ctx he hb]
  exact transform_parameter_not_two e ctx hkey hparts

/-- Witness for the amended claim C5 at a concrete input. -/
theorem C5_witness :
    transform_message (wrap ("a.b.c".data)) [(("user".data), Obj.mk ("Bob".data) [])]
      = wrap ("a.b.c".data) :=
  C5_malformed_fallback _ _ (by decide) (by decide) rfl (by decide)

/-- Claim C6, counterexample: quantified over every name, the claim fails
(1) for a bound name containing `'}'` (the scanner cuts the placeholder at
the first `'}'`), (2) for an unbound dotted name whose parts resolve as an
attribute access (the output is the attribute value, not the fallback), and
(3) for the empty name, which is bound yet never even scanned as a
placeholder. -/
theorem C6_counterexample :
    (transform_message ('{' :: (['a', '}', 'b']) ++ ['}'])
        [((['a', '}', 'b']), Obj.mk ("X".data) [])]
        = ('{' :: (['a', '}', 'b']) ++ ['}']) ∧
      ('{' :: (['a', '}', 'b']) ++ ['}']) ≠ ("X".data)) ∧
    (transform_message (wrap ("user.id".data))
        [(("user".data), Obj.mk ("U".data) [(("id".data), Obj.mk ("7".data) [])])]
        = ("7".data) ∧ ("7".data) ≠ wrap ("user.id".data)) ∧
    (transform_message ['{', '}'] [(([] : Str), Obj.mk ("E".data) [])]
        = ['{', '}'] ∧ (['{', '}'] : Str) ≠ ("E".data)) := by
  exact ⟨⟨by decide, by decide⟩, ⟨by decide, by decide⟩, by decide, by decide⟩

/-- Claim C6, amended: for every context and every non-empty name
containing neither `'}'` nor `'.'`: if the name is a key of the context the
single-placeholder template renders to the bound value's string form, and
otherwise it renders to the unchanged fallback literal `{name}`. -/
theorem C6_name_resolution (ctx : Ctx) (name : Str) (h1 : name ≠ [])
    (h2 : '}' ∉ name) (h3 : '.' ∉ name) :
    (∀ v, dictGet ctx name = some v → transform_message (wrap name) ctx = v.str) ∧
    (dictGet ctx name = none → transform_message (wrap name) ctx = wrap name) := by
  constructor
  · intro v hv
    rw [transform_message_single name ctx h1 h2]
    exact transform_parameter_key name ctx v hv
  · intro hn
    rw [transform_message_single name ctx h1 h2]
    exact transform_parameter_one_part name ctx hn h3

/-- Witness for the amended claim C6 at concrete inputs, one per branch. -/
theorem C6_witness :
    transform_message (wrap ("user".data)) [(("user".data), Obj.mk ("Bob".data) [])]
      = ("Bob".data) ∧
    transform_message (wrap ("ghost".data)) [(("user".data), Obj.mk ("Bob".data) [])]
      = wrap ("ghost".data) :=
  ⟨(C6_name_resolution _ _ (by decide) (by decide) (by decide)).1
      (Obj.mk ("Bob".data) []) rfl,
    (C6_name_resolution _ _ (by decide) (by decide) (by decide)).2 rfl⟩

/-- Claim C7: if every extracted placeholder of a template resolves to its
own fallback literal (in particular if the template has no placeholders at
all), rendering returns the template unchanged, and rendering the output
again yields that same string: idempotence on fallback output. -/
theorem C7_fallback_idempotent (t : Str) (ctx : Ctx)
    (h : ∀ e ∈ findPlaceholders t, transform_parameter e ctx = wrap e) :
    transform_message t ctx = t ∧
    transform_message (transform_message t ctx) ctx = transform_message t ctx := by
  have h1 : transform_message t ctx = t := by
    rw [transform_message]
    exact foldl_replace_id ctx (findPlaceholders t) t h
  refine ⟨h1, ?_⟩
  rw [h1]
  exact h1

/-- Witness for claim C7 at a concrete input: an unknown name and a
malformed expression, all unresolvable. -/
theorem C7_witness :
    transform_message (wrap ("ghost".data) ++ ' ' :: wrap ("a.b.c".data))
        [(("user".data), Obj.mk ("Bob".data) [])]
      = (wrap ("ghost".data) ++ ' ' :: wrap ("a.b.c".data)) ∧
    transform_message
        (transform_message (wrap ("ghost".data) ++ ' ' :: wrap ("a.b.c".data))
          [(("user".data), Obj.mk ("Bob".data) [])])
        [(("user".data), Obj.mk ("Bob".data) [])]
      = transform_message (wrap ("ghost".data) ++ ' ' :: wrap ("a.b.c".data))
          [(("user".data), Obj.mk ("Bob".data) [])] :=
  C7_fallback_idempotent _ _ (by decide)

/-- Claim C8: a binding whose key is neither an extracted expression of the
template nor the first part of the dot-split of one never changes the
output: prepending such a binding to the context (the model of adding an
unused entry to the dict) is invisible to rendering, and causes no error. -/
theorem C8_unused_binding (t : Str) (ctx : Ctx) (k : Str) (v : Obj)
    (h : ∀ e ∈ findPlaceholders t, e ≠ k ∧ (splitDot e).head? ≠ some k) :
    transform_message t ((k, v) :: ctx) = transform_message t ctx := by
  rw [transform_message, transform_message]
  exact foldl_replace_congr ((k, v) :: ctx) ctx (findPlaceholders t) t
    (fun e he => transform_parameter_extend e k v ctx (h e he).1 (h e he).2)

/-- Witness for claim C8 at a concrete input. -/
theorem C8_witness :
    transform_message (wrap ("user".data))
        ((("extra".data), Obj.mk ("junk".data) []) :: [(("user".data), Obj.mk ("Bob".data) [])])
      = transform_message (wrap ("user".data)) [(("user".data), Obj.mk ("Bob".data) [])] :=
  C8_unused_binding _ _ _ (Obj.mk ("junk".data) []) (by decide)

/-- Claim C9, counterexample: the extracted expression of `"{{user}}"` is
`"{user"`, and a context that binds `user` may also bind the key `"{user"`;
the placeholder then resolves and the doubled-brace template is rewritten,
contradicting the claim's unconditional equation. -/
theorem C9_counterexample :
    transform_message ('{' :: '{' :: "user".data ++ ['}', '}'])
        [(("user".data), Obj.mk ("Bob".data) []), (('{' :: "user".data), Obj.mk ("W".data) [])]
      = ("W".data ++ ['}']) ∧
    ("W".data ++ ['}']) ≠ ('{' :: '{' :: "user".data ++ ['}', '}']) ∧
    (dictGet [(("user".data), Obj.mk ("Bob".data) []),
      (('{' :: "user".data), Obj.mk ("W".data) [])] ("user".data)).isSome = true := by
  exact ⟨by decide, by decide, by decide⟩

/-- Claim C9, amended: there is no brace-escaping mechanism: the scanner
extracts `"{user"` from `"{{user}}"`, and for every context that binds
`user` but does not bind the key `"{user"`, that expression never resolves,
so the doubled-brace template renders unchanged — no literal brace around a
resolved value, no resolution of the inner name. -/
theorem C9_doubled_braces (ctx : Ctx) (u : Obj)
    (huser : dictGet ctx ("user".data) = some u)
    (hopen : dictGet ctx ('{' :: "user".data) = none) :
    transform_message ('{' :: '{' :: "user".data ++ ['}', '}']) ctx
      = ('{' :: '{' :: "user".data ++ ['}', '}']) ∧
    findPlaceholders ('{' :: '{' :: "user".data ++ ['}', '}']) = ['{' :: "user".data] := by
  refine ⟨?_, by decide⟩
  have hE : findPlaceholders ('{' :: '{' :: "user".data ++ ['}', '}'])
      = ['{' :: "user".data] := by decide
  rw [transform_message, hE, List.foldl_cons, List.foldl_nil,
    replaceAll_eq_self _ _ _ (transform_parameter_one_part _ ctx hopen (by decide))]

/-- Witness for the amended claim C9 at a concrete input. -/
theorem C9_witness :
    transform_message ('{' :: '{' :: "user".data ++ ['}', '}'])
        [(("user".data), Obj.mk ("Bob".data) [])]
      = ('{' :: '{' :: "user".data ++ ['}', '}']) :=
  (C9_doubled_braces [(("user".data), Obj.mk ("Bob".data) [])]
    (Obj.mk ("Bob".data) []) rfl rfl).1

/-- Claim C10: an empty brace pair is not a placeholder: the scanner
requires a non-empty expression, so `"{}"` yields no captures and renders
unchanged under every context. -/
theorem C10_empty_braces (ctx : Ctx) :
    transform_message ['{', '}'] ctx = ['{', '}'] ∧
    findPlaceholders ['{', '}'] = [] :=
  ⟨rfl, rfl⟩

/-! ### The tokenisation of a template and its correspondence with the
scanner, the template itself, and the one-pass simultaneous renderer -/

theorem tokAux_flatten : ∀ (s : Str),
    flattenD wrap (tokAux s none) = s ∧
    ∀ acc, flattenD wrap (tokAux s (some acc)) = '{' :: (acc ++ s) := by
  intro s
  induction s with
  | nil =>
    refine ⟨rfl, fun acc => ?_⟩
    simp [tokAux, flattenD]
  | cons c cs ih =>
    constructor
    · by_cases hc : c = '{'
      · rw [tokAux, if_pos hc, (ih.2 [])]
        simp [hc]
      · rw [tokAux, if_neg hc]
        simp [flattenD, ih.1]
    · intro acc
      by_cases hc : c = '}'
      · by_cases hacc : acc = []
        · rw [tokAux, if_pos hc, if_pos hacc]
          simp [flattenD, ih.1, hacc, hc]
        · rw [tokAux, if_pos hc, if_neg hacc]
          simp [flattenD, ih.1, wrap, hc]
      · rw [tokAux, if_neg hc, (ih.2 (acc ++ [c]))]
        simp

theorem tokAux_phs : ∀ (s : Str),
    phsOf (tokAux s none) = findAux s none ∧
    ∀ acc, phsOf (tokAux s (some acc)) = findAux s (some acc) := by
  intro s
  induction s with
  | nil =>
    refine ⟨rfl, fun acc => ?_⟩
    simp [tokAux, findAux, phsOf]
  | cons c cs ih =>
    constructor
    · by_cases hc : c = '{'
      · rw [tokAux, if_pos hc, findAux, if_pos hc, (ih.2 [])]
      · rw [tokAux, if_neg hc, findAux, if_neg hc]
        simp [phsOf, ih.1]
    · intro acc
      by_cases hc : c = '}'
      · by_cases hacc : acc = []
        · rw [tokAux, if_pos hc, if_pos hacc, findAux, if_pos hc, if_pos hacc]
          simp [phsOf, ih.1]
        · rw [tokAux, if_pos hc, if_neg hacc, findAux, if_pos hc, if_neg hacc]
          simp [phsOf, ih.1]
      · rw [tokAux, if_neg hc, findAux, if_neg hc, (ih.2 (acc ++ [c]))]

theorem tokAux_ok : ∀ (s : Str),
    OkToks (tokAux s none) ∧
    ∀ acc, '}' ∉ acc → OkToks (tokAux s (some acc)) := by
  intro s
  induction s with
  | nil =>
    refine ⟨OkToks.nil, fun acc hacc => ?_⟩
    exact OkToks.last_unclosed acc hacc
  | cons c cs ih =>
    constructor
    · by_cases hc : c = '{'
      · rw [tokAux, if_pos hc]
        exact ih.2 [] (by simp)
      · rw [tokAux, if_neg hc]
        exact OkToks.cons _ _ (Or.inl ⟨c, hc, rfl⟩) ih.1
    · intro acc hacc
      by_cases hc : c = '}'
      · by_cases hacc2 : acc = []
        · rw [tokAux, if_pos hc, if_pos hacc2]
          exact OkToks.cons _ _ (Or.inr rfl) ih.1
        · rw [tokAux, if_pos hc, if_neg hacc2]
          exact OkToks.cons _ _ ⟨hacc2, hacc⟩ ih.1
      · rw [tokAux, if_neg hc]
        refine ih.2 (acc ++ [c]) ?_
        intro h
        rcases List.mem_append.mp h with h1 | h1
        · exact hacc h1
        · exact hc (List.mem_singleton.mp h1).symm

theorem tokAux_sim (objects : Ctx) : ∀ (s : Str),
    flattenD (fun x => transform_parameter x objects) (tokAux s none)
      = renderSimAux objects s none ∧
    ∀ acc, flattenD (fun x => transform_parameter x objects) (tokAux s (some acc))
      = renderSimAux objects s (some acc) := by
  intro s
  induction s with
  | nil =>
    refine ⟨rfl, fun acc => ?_⟩
    simp [tokAux, flattenD, renderSimAux]
  | cons c cs ih =>
    constructor
    · by_cases hc : c = '{'
      · rw [tokAux, if_pos hc, renderSimAux, if_pos hc, (ih.2 [])]
      · rw [tokAux, if_neg hc, renderSimAux, if_neg hc]
        simp [flattenD, ih.1]
    · intro acc
      by_cases hc : c = '}'
      · by_cases hacc : acc = []
        · rw [tokAux, if_pos hc, if_pos hacc, renderSimAux, if_pos hc, if_pos hacc]
          simp [flattenD, ih.1]
        · rw [tokAux, if_pos hc, if_neg hacc, renderSimAux, if_pos hc, if_neg hacc]
          simp [flattenD, ih.1]
      · rw [tokAux, if_neg hc, renderSimAux, if_neg hc, (ih.2 (acc ++ [c]))]

theorem phsOf_tail (tk : Tok) (rest : List Tok) : ∀ f ∈ phsOf rest, f ∈ phsOf (tk :: rest) := by
  intro f hf
  cases tk with
  | lit s => simpa [phsOf] using hf
  | ph e => simp [phsOf, hf]

theorem flattenD_congr : ∀ (toks : List Tok) (d d2 : Str → Str),
    (∀ f ∈ phsOf toks, d f = d2 f) → flattenD d toks = flattenD d2 toks := by
  intro toks
  induction toks with
  | nil => intro d d2 _; rfl
  | cons tk rest ih =>
    intro d d2 h
    cases tk with
    | lit s =>
      simp only [flattenD]
      rw [ih d d2 (fun f hf => h f (phsOf_tail _ rest f hf))]
    | ph e =>
      simp only [flattenD]
      rw [h e (by simp [phsOf]), ih d d2 (fun f hf => h f (phsOf_tail _ rest f hf))]

/-- One global replacement pass for the literal `{e}` acts on a well-formed
token list exactly by updating the display of the placeholders for `e` that
still show their literal; verbatim chunks and placeholders displaying other
literals or brace-free values are untouched. -/
theorem replaceDisplay (objects : Ctx) (e : Str) (he : e ≠ []) (heo : '{' ∉ e)
    (hec : '}' ∉ e) (v : Str) :
    ∀ (toks : List Tok), OkToks toks →
    (∀ f ∈ phsOf toks, f ≠ [] ∧ '{' ∉ f ∧ '}' ∉ f) →
    ∀ (d : Str → Str), (∀ f ∈ phsOf toks, d f = wrap f ∨ braceFree (d f)) →
    replaceAll (wrap e) v (flattenD d toks)
      = flattenD (fun f => if f = e ∧ d e = wrap e then v else d f) toks := by
  intro toks hok
  induction hok with
  | nil =>
    intro _ d _
    exact replaceAll_nil _ _
  | last_unclosed acc hacc =>
    intro hwf d hd
    simp only [flattenD, List.append_nil]
    apply replaceAll_of_not_closed
    · simp [wrap]
    · intro h
      rcases List.mem_cons.mp h with h1 | h1
      · exact absurd h1 (by decide)
      · exact hacc h1
  | cons tk rest htk hrest ih =>
    intro hwf d hd
    have hwf2 : ∀ f ∈ phsOf rest, f ≠ [] ∧ '{' ∉ f ∧ '}' ∉ f :=
      fun f hf => hwf f (phsOf_tail tk rest f hf)
    have hd2 : ∀ f ∈ phsOf rest, d f = wrap f ∨ braceFree (d f) :=
      fun f hf => hd f (phsOf_tail tk rest f hf)
    cases tk with
    | lit s =>
      rcases htk with ⟨c, hc, rfl⟩ | rfl
      · simp only [flattenD]
        rw [replaceAll_skip (wrap e) v (by simp [wrap]) [c] _
          (by simp [List.mem_singleton]; exact fun h => hc h.symm)]
        rw [ih hwf2 d hd2]
      · simp only [flattenD]
        have hshape : (['{', '}'] : Str) ++ flattenD d rest
            = '{' :: '}' :: flattenD d rest := by simp
        rw [hshape, replaceAll_brace_pair e v he hec (flattenD d rest)]
        rw [ih hwf2 d hd2]
        simp
    | ph f =>
      obtain ⟨hf1, hf2, hf3⟩ := hwf f (by simp [phsOf])
      simp only [flattenD]
      rcases hd f (by simp [phsOf]) with hdf | hdf
      · by_cases hfe : f = e
        · subst hfe
          conv_lhs => rw [hdf]
          rw [replaceAll_matched (wrap f) v _ (by simp [wrap])]
          rw [ih hwf2 d hd2]
          have hcond : (f = f ∧ d f = wrap f) := ⟨rfl, hdf⟩
          rw [if_pos hcond]
        · conv_lhs => rw [hdf]
          rw [replaceAll_wrap_other v (flattenD d rest) hec hf3 hf2
            (fun h => hfe h.symm)]
          rw [ih hwf2 d hd2]
          rw [if_neg (fun hc2 => hfe hc2.1), hdf]
      · rw [replaceAll_skip (wrap e) v (by simp [wrap]) (d f) _ hdf.1]
        rw [ih hwf2 d hd2]
        have hcond : ¬ (f = e ∧ d e = wrap e) := by
          rintro ⟨rfl, hde⟩
          rw [hde] at hdf
          exact hdf.1 (by simp [wrap])
        rw [if_neg hcond]

/-- A display already showing the resolved value of `f` is preserved by
every further update. -/
theorem applyAll_stable (objects : Ctx) : ∀ (E : List Str) (d : Str → Str) (f : Str),
    d f = transform_parameter f objects →
    applyAll objects E d f = transform_parameter f objects := by
  intro E
  induction E with
  | nil => intro d f h; exact h
  | cons e E ih =>
    intro d f h
    show applyAll objects E (updD objects d e) f = _
    refine ih _ f ?_
    unfold updD
    by_cases hc : f = e ∧ d e = wrap e
    · rw [if_pos hc, hc.1]
    · rw [if_neg hc]; exact h

/-- After the passes for all of `E`, every expression of `E` whose display
started as its literal or its value displays its resolved value. -/
theorem applyAll_mem (objects : Ctx) : ∀ (E : List Str) (d : Str → Str) (f : Str), f ∈ E →
    d f = wrap f ∨ d f = transform_parameter f objects →
    applyAll objects E d f = transform_parameter f objects := by
  intro E
  induction E with
  | nil => intro d f h _; simp at h
  | cons e E ih =>
    intro d f hf hd
    show applyAll objects E (updD objects d e) f = _
    by_cases hfe : f = e
    · refine applyAll_stable objects E _ f ?_
      unfold updD
      rcases hd with h1 | h1
      · have h2 : d e = wrap e := by rw [← hfe]; exact h1
        rw [if_pos ⟨hfe, h2⟩, hfe]
      · by_cases hc : f = e ∧ d e = wrap e
        · rw [if_pos hc, hfe]
        · rw [if_neg hc]; exact h1
    · have hfE : f ∈ E := by
        rcases List.mem_cons.mp hf with h1 | h1
        · exact absurd h1 hfe
        · exact h1
      refine ih _ f hfE ?_
      unfold updD
      rw [if_neg (fun hc => hfe hc.1)]
      exact hd

/-- The replacement fold of `transform_message`, acting on a well-formed
tokenised template, is the display fold: each pass updates displays only. -/
theorem foldGen (objects : Ctx) : ∀ (E : List Str) (toks : List Tok) (d : Str → Str),
    OkToks toks →
    (∀ f ∈ phsOf toks, f ≠ [] ∧ '{' ∉ f ∧ '}' ∉ f) →
    (∀ f ∈ phsOf toks, d f = wrap f ∨ braceFree (d f)) →
    (∀ e ∈ E, e ≠ [] ∧ '{' ∉ e ∧ '}' ∉ e) →
    (∀ e ∈ E, transform_parameter e objects = wrap e ∨
      braceFree (transform_parameter e objects)) →
    E.foldl (fun msg result => replaceAll (wrap result) (transform_parameter result objects) msg)
        (flattenD d toks)
      = flattenD (applyAll objects E d) toks := by
  intro E
  induction E with
  | nil =>
    intro toks d _ _ _ _ _
    rfl
  | cons e E ih =>
    intro toks d hok hwf hd hE h2
    rw [List.foldl_cons]
    obtain ⟨he1, he2, he3⟩ := hE e (List.mem_cons_self e E)
    rw [replaceDisplay objects e he1 he2 he3 (transform_parameter e objects) toks hok hwf d hd]
    have hrepr : (fun f => if f = e ∧ d e = wrap e then transform_parameter e objects else d f)
        = updD objects d e := rfl
    rw [hrepr]
    rw [ih toks (updD objects d e) hok hwf ?hd2
      (fun x hx => hE x (List.mem_cons_of_mem e hx))
      (fun x hx => h2 x (List.mem_cons_of_mem e hx))]
    · rfl
    case hd2 =>
      intro f hf
      unfold updD
      by_cases hc : f = e ∧ d e = wrap e
      · rw [if_pos hc, hc.1]
        exact h2 e (List.mem_cons_self e E)
      · rw [if_neg hc]
        exact hd f hf

/-- Claim C1, counterexample: the replacements are sequential, not
simultaneous: with `a` bound to an object whose string form is the literal
`"{b}"` and `b` bound to `"X"`, rendering `"{a}{b}"` first rewrites it to
`"{b}{b}"` and the later pass for `b` then rewrites the substituted value
as well, giving `"XX"`, while the claimed simultaneous substitution gives
`"{b}X"`. -/
theorem C1_counterexample :
    transform_message ('{' :: 'a' :: '}' :: '{' :: 'b' :: ['}'])
        [(("a".data), Obj.mk (wrap ("b".data)) []), (("b".data), Obj.mk ("X".data) [])]
      = ("XX".data) ∧
    renderSimultaneous ('{' :: 'a' :: '}' :: '{' :: 'b' :: ['}'])
        [(("a".data), Obj.mk (wrap ("b".data)) []), (("b".data), Obj.mk ("X".data) [])]
      = (wrap ("b".data) ++ "X".data) ∧
    transform_message ('{' :: 'a' :: '}' :: '{' :: 'b' :: ['}'])
        [(("a".data), Obj.mk (wrap ("b".data)) []), (("b".data), Obj.mk ("X".data) [])]
      ≠ renderSimultaneous ('{' :: 'a' :: '}' :: '{' :: 'b' :: ['}'])
        [(("a".data), Obj.mk (wrap ("b".data)) []), (("b".data), Obj.mk ("X".data) [])] := by
  exact ⟨by decide, by decide, by decide⟩

/-- Claim C1, amended: provided no extracted expression contains `'{'` and
every extracted expression's substitution value is either its own fallback
literal or brace-free, the sequential global replacements of
`transform_message` coincide with the simultaneous one-pass substitution
of the spec: every occurrence of each distinct placeholder literal is
replaced by that expression's resolved-or-fallback string, resolved against
the context alone, substituted values are not rescanned, and identical
placeholders receive the same value.  (Without the proviso, a substituted
value containing the literal of a later expression is rewritten again,
refuting the unconditional claim.) -/
theorem C1_render_eq_simultaneous (t : Str) (objects : Ctx)
    (h1 : ∀ e ∈ findPlaceholders t, '{' ∉ e)
    (h2 : ∀ e ∈ findPlaceholders t, transform_parameter e objects = wrap e ∨
      braceFree (transform_parameter e objects)) :
    transform_message t objects = renderSimultaneous t objects := by
  have hphs : phsOf (tokAux t none) = findPlaceholders t := (tokAux_phs t).1
  have hflat : flattenD wrap (tokAux t none) = t := (tokAux_flatten t).1
  have hok : OkToks (tokAux t none) := (tokAux_ok t).1
  have hwf : ∀ f ∈ phsOf (tokAux t none), f ≠ [] ∧ '{' ∉ f ∧ '}' ∉ f := by
    intro f hf
    rw [hphs] at hf
    obtain ⟨hf1, hf2⟩ := findPlaceholders_wf t f hf
    exact ⟨hf1, h1 f hf, hf2⟩
  have hE : ∀ e ∈ findPlaceholders t, e ≠ [] ∧ '{' ∉ e ∧ '}' ∉ e := by
    intro x hx
    obtain ⟨ha, hb⟩ := findPlaceholders_wf t x hx
    exact ⟨ha, h1 x hx, hb⟩
  calc
    transform_message t objects
        = (findPlaceholders t).foldl
            (fun msg result =>
              replaceAll (wrap result) (transform_parameter result objects) msg)
            (flattenD wrap (tokAux t none)) := by
          rw [hflat]; rfl
    _ = flattenD (applyAll objects (findPlaceholders t) wrap) (tokAux t none) :=
          foldGen objects (findPlaceholders t) (tokAux t none) wrap hok hwf
            (fun f _ => Or.inl rfl) hE h2
    _ = flattenD (fun x => transform_parameter x objects) (tokAux t none) := by
          refine flattenD_congr (tokAux t none) _ _ ?_
          intro f hf
          rw [hphs] at hf
          exact applyAll_mem objects (findPlaceholders t) wrap f hf (Or.inl rfl)
    _ = renderSimultaneous t objects := (tokAux_sim objects t).1

/-- Witness for the amended claim C1: identical placeholders, brace-free
values, sequential render equal to simultaneous render. -/
theorem C1_witness :
    transform_message (wrap ("user".data) ++ (" and ".data) ++ wrap ("user".data))
        [(("user".data), Obj.mk ("Alice".data) [])]
      = renderSimultaneous (wrap ("user".data) ++ (" and ".data) ++ wrap ("user".data))
        [(("user".data), Obj.mk ("Alice".data) [])] :=
  C1_render_eq_simultaneous _ _ (by decide) (by decide)

end FlareMod
